import Mathlib

/-!
Verification of the call-order-indexed, tree-addressed state store in
`src/hook.rs` (the `hooks.rs` variant is an identical duplicate of the same
definitions up to the name `Hooks`/`Hook`).

Embedding conventions:
  * Rust's type-erased `Box<dyn Any + Send>` slots are modelled by `DynValue`,
    a closed universe of tagged values covering the value types the program's
    tests exercise (string, integer, 64-bit float, bool); `downcast_ref::<T>`
    becomes a check that the stored tag equals the requested tag. An `f64` is
    modelled by its 64-bit pattern as a `Nat`: the program only stores, copies
    and compares slots, never computes with floats.
  * The program signals every failure by panicking. Each panic site is mapped
    to a typed `HookError`:
      - `assert!(index <= head)` in `State::use_state` ↦ `OrderViolation`;
      - the failed `downcast_ref` panic in `State::use_state` ↦ `TypeMismatch`;
      - the out-of-bounds `Vec` index panic in `registers[index] = ...` inside
        the `set_value` closure ↦ `UnknownSlot`;
      - the out-of-bounds `Vec` index panic in `self.children[cursor[0]]`
        inside `StateTree::get_state` ↦ `none` (there is no designed
        `UnknownPath` error in the code, and no code path ever populates
        `children`).
    Since a panic aborts the operation, functions return both the outcome and
    the memory state at the moment the operation ends (normally or by panic).
  * The global `STATE_TREE` mutex-guarded singleton becomes explicit
    state-passing of a `StateTree` value; `RwLock` contents become plain
    lists. Concurrency (lock acquisition order, torn writes) is outside this
    sequential embedding.
-/

/-- Runtime type tags standing for Rust `TypeId`s of the value types used. -/
inductive Ty where
  | str
  | int
  | float
  | bool
deriving DecidableEq, Repr

/-- A type-erased, cloneable value: model of one `Box<dyn Any + Send>` slot.
The `float` constructor carries the 64-bit pattern of an `f64` as a `Nat`. -/
inductive DynValue where
  | str (s : String)
  | int (i : Int)
  | float (bits : Nat)
  | bool (b : Bool)
deriving DecidableEq, Repr

/-- The runtime type tag of a value: model of `TypeId::of` as used by
`downcast_ref`. -/
def DynValue.ty : DynValue → Ty
  | .str _ => .str
  | .int _ => .int
  | .float _ => .float
  | .bool _ => .bool

/-- Typed names for the panic conditions of the program (see the header
comment for the mapping from panic sites to these names). -/
inductive HookError where
  | OrderViolation
  | TypeMismatch
  | UnknownSlot
  | UnknownPath
deriving DecidableEq, Repr

/-- Model of `struct State { registers: RwLock<Vec<AnyBox>> }`: the slot store
of one tree position. The `RwLock` is dropped (sequential embedding). -/
structure State where
  registers : List DynValue
deriving DecidableEq, Repr

/-- Model of `State::default()`. -/
def State.default : State := ⟨[]⟩

/-- Model of `State::use_state::<T>(&self, value: T, index: usize) -> T`
(src/hook.rs lines 88-117). Returns the outcome together with the register
list after the call (the registers at the moment of a panic, for error
outcomes):
  * `let head = v.len()`; `assert!(index <= head)` — a violated assert panics
    before any mutation (`OrderViolation`);
  * if `head == index`, push `value` as a new register;
  * read `state[index]`, downcast it to the requested type (here: compare the
    stored tag with `value.ty`) and return a clone; a failed downcast panics
    (`TypeMismatch`). -/
def State.use_state (regs : List DynValue) (value : DynValue) (index : Nat) :
    Except HookError DynValue × List DynValue :=
  let head := regs.length
  if index ≤ head then
    let regs' := if head = index then regs ++ [value] else regs
    match regs'.get? index with
    | some stored =>
        if stored.ty = value.ty then (.ok stored, regs')
        else (.error .TypeMismatch, regs')
    | none => (.error .TypeMismatch, regs')
  else
    (.error .OrderViolation, regs)

/-- Model of the register write `registers[index] = Box::new(value)` performed
by the `set_value` closure (src/hook.rs line 159). Rust's index-assignment
panics when `index >= registers.len()` (↦ `UnknownSlot`), before any mutation;
otherwise it overwrites the slot in place with no type check. -/
def set_value (regs : List DynValue) (index : Nat) (value : DynValue) :
    Except HookError Unit × List DynValue :=
  if index < regs.length then (.ok (), regs.set index value)
  else (.error .UnknownSlot, regs)

/-- Model of `struct StateTree { state, children, cursor }` (src/hook.rs lines
58-68). Recursive through `children`, hence an inductive with explicit
projections. -/
inductive StateTree where
  | mk (state : State) (children : List StateTree) (cursor : Nat)

/-- Projection for the `state` field. -/
def StateTree.state : StateTree → State
  | .mk s _ _ => s

/-- Projection for the `children` field. -/
def StateTree.children : StateTree → List StateTree
  | .mk _ c _ => c

/-- Projection for the (unused) `cursor` field. -/
def StateTree.cursor : StateTree → Nat
  | .mk _ _ k => k

/-- Model of `StateTree::default()`: empty registers, no children. -/
def StateTree.default : StateTree := .mk State.default [] 0

/-- Model of `StateTree::get_state(&self, cursor: &[usize]) -> &State`
(src/hook.rs lines 71-77). An empty cursor returns this node's own state;
otherwise the code indexes `self.children[cursor[0]]` — an out-of-bounds
index panics (`none` here; the code has no `UnknownPath` value and never
grows `children`). -/
def StateTree.get_state : StateTree → List Nat → Option State
  | t, [] => some t.state
  | t, i :: rest =>
    match t.children.get? i with
    | some c => c.get_state rest
    | none => none

/-- Functional write-back of a register list at a path: models mutating the
`State` reference obtained from `get_state` (the Rust code mutates in place
through that shared reference). A path that does not resolve leaves the tree
unchanged (in the program this point is unreachable: the same resolution has
just succeeded). -/
def StateTree.setStateAt : StateTree → List Nat → List DynValue → StateTree
  | .mk _ ch k, [], regs => .mk ⟨regs⟩ ch k
  | .mk s ch k, i :: rest, regs =>
    match ch.get? i with
    | some c => .mk s (ch.set i (c.setStateAt rest regs)) k
    | none => .mk s ch k

/-- Model of `struct Hook { cursor: Vec<usize>, counter: usize }`
(src/hook.rs lines 120-128): the per-invocation binding. -/
structure Hook where
  cursor : List Nat
  counter : Nat
deriving DecidableEq, Repr

/-- Model of `Hook::default()`: root cursor, counter 0. -/
def Hook.default : Hook := ⟨[], 0⟩

/-- Model of the captures of the `set_value` closure (src/hook.rs lines
148-160): the cloned cursor and the slot index. -/
structure Setter where
  cursor : List Nat
  index : Nat
deriving DecidableEq, Repr

/-- Model of invoking the `set_value` closure (src/hook.rs lines 150-160):
lock the global tree, resolve the captured cursor, then write
`registers[index] = Box::new(value)`. A failed resolution is the
`children` index panic (`UnknownPath` here, leaving the tree unchanged). -/
def Setter.call (s : Setter) (tree : StateTree) (value : DynValue) :
    Except HookError Unit × StateTree :=
  match tree.get_state s.cursor with
  | none => (.error .UnknownPath, tree)
  | some st =>
    let (r, regs') := set_value st.registers s.index value
    (r, tree.setStateAt s.cursor regs')

/-- Model of `Hook::use_state::<T>(&mut self, value: T) -> (T, impl Fn(T))`
(src/hook.rs lines 131-163): take `index := counter`, increment the counter,
lock the global tree, resolve `self.cursor`, delegate to `State::use_state`,
and build the setter capturing `(cursor.clone(), index)`. Returns the
outcome, the updated hook, and the tree after the call. -/
def Hook.use_state (h : Hook) (tree : StateTree) (value : DynValue) :
    Except HookError (DynValue × Setter) × Hook × StateTree :=
  let index := h.counter
  let h' : Hook := ⟨h.cursor, index + 1⟩
  match tree.get_state h.cursor with
  | none => (.error .UnknownPath, h', tree)
  | some st =>
    match State.use_state st.registers value index with
    | (.ok v, regs') =>
      (.ok (v, ⟨h.cursor, index⟩), h', tree.setStateAt h.cursor regs')
    | (.error e, regs') =>
      (.error e, h', tree.setStateAt h.cursor regs')

/-- Run a sequence of `use_state` requests through one hook, in program order,
stopping at the first panic (as the program would). Returns the collected
`(currentValue, setter)` pairs, the final hook, and the final tree. -/
def runSeq : Hook → StateTree → List DynValue →
    Except HookError (List (DynValue × Setter)) × Hook × StateTree
  | h, t, [] => (.ok [], h, t)
  | h, t, v :: vs =>
    match Hook.use_state h t v with
    | (.ok (cv, s), h', t') =>
      match runSeq h' t' vs with
      | (.ok rest, h'', t'') => (.ok ((cv, s) :: rest), h'', t'')
      | (.error e, h'', t'') => (.error e, h'', t'')
    | (.error e, h', t') => (.error e, h', t')

/-- The `(currentValue, setter)` pairs produced by a run of fresh appends (or
an error-free replay) at path `p` starting at counter `c` with stored values
`vs`: value `vs[i]` paired with setter `(p, c + i)`. -/
def outsFrom (p : List Nat) : Nat → List DynValue → List (DynValue × Setter)
  | _, [] => []
  | c, v :: vs => (v, ⟨p, c⟩) :: outsFrom p (c + 1) vs

/-- Apply a sequence of setter invocations `(index, newValue)` at path `p`,
collecting each invocation's outcome. Models calling several setters produced
at that path, one after another. -/
def applySetters (p : List Nat) : StateTree → List (Nat × DynValue) →
    List (Except HookError Unit) × StateTree
  | t, [] => ([], t)
  | t, (k, w) :: us =>
    let (r, t') := Setter.call ⟨p, k⟩ t w
    let (rs, t'') := applySetters p t' us
    (r :: rs, t'')

/-- The register list after a sequence of in-place overwrites. -/
def setAll (vs : List DynValue) (us : List (Nat × DynValue)) : List DynValue :=
  us.foldl (fun acc kw => acc.set kw.1 kw.2) vs

/-! ### Helper lemmas -/

/-- The element sitting right after a prefix of an append. -/
theorem get?_append_cons {α} (pre post : List α) (x : α) :
    (pre ++ x :: post).get? pre.length = some x := by
  induction pre with
  | nil => rfl
  | cons a pre ih => simpa using ih

/-- Overwriting an element by one with the same image under `f` does not
change the mapped list. -/
theorem map_set_eq_of_eq {α β} (f : α → β) (l : List α) :
    ∀ (k : Nat) (u w : α), l.get? k = some u → f w = f u →
    (l.set k w).map f = l.map f := by
  induction l with
  | nil => intro k u w h; simp at h
  | cons a l ih =>
    intro k u w h hf
    cases k with
    | zero =>
      simp only [List.get?] at h
      cases h
      simp [List.set, hf]
    | succ k =>
      simp only [List.get?] at h
      simp [List.set, ih k u w h hf]

/-- The values of an `outsFrom` block are exactly the stored values. -/
theorem outsFrom_map_fst (p : List Nat) :
    ∀ (c : Nat) (vs : List DynValue),
    (outsFrom p c vs).map Prod.fst = vs := by
  intro c vs
  induction vs generalizing c with
  | nil => rfl
  | cons v vs ih => simp [outsFrom, ih]

/-- The `i`-th entry of an `outsFrom` block: the `i`-th stored value paired
with the setter for slot `c + i`. -/
theorem outsFrom_get? (p : List Nat) :
    ∀ (c : Nat) (vs : List DynValue) (i : Nat),
    (outsFrom p c vs).get? i = (vs.get? i).map (fun v => (v, ⟨p, c + i⟩)) := by
  intro c vs
  induction vs generalizing c with
  | nil => intro i; simp [outsFrom]
  | cons v vs ih =>
    intro i
    cases i with
    | zero => simp [outsFrom]
    | succ i =>
      simp only [outsFrom, List.get?, ih (c + 1) i]
      have : c + 1 + i = c + (i + 1) := by omega
      rw [this]

/-! ### Tree resolution lemmas -/

/-- Writing registers at a resolvable path makes that path resolve to exactly
those registers. -/
theorem get_state_setStateAt (p : List Nat) :
    ∀ (t : StateTree) (st : State) (regs : List DynValue),
    t.get_state p = some st →
    (t.setStateAt p regs).get_state p = some ⟨regs⟩ := by
  induction p with
  | nil => intro t st regs _; cases t; rfl
  | cons i rest ih =>
    intro t st regs h
    cases t with
    | mk s ch k =>
      simp only [StateTree.get_state, StateTree.children] at h
      cases hch : ch.get? i with
      | none => rw [hch] at h; exact absurd h (by simp)
      | some c =>
        rw [hch] at h
        have hi : i < ch.length := (List.get?_eq_some.mp hch).1
        simp only [StateTree.setStateAt, hch, StateTree.get_state,
          StateTree.children]
        rw [List.get?_set_eq_of_lt _ hi]
        exact ih c st regs h

/-! ### Step lemmas for the slot store -/

/-- Appending step: a request at `index = currentLength` appends the initial
value and returns it. -/
theorem use_state_append_eq (regs : List DynValue) (v : DynValue) :
    State.use_state regs v regs.length = (.ok v, regs ++ [v]) := by
  simp [State.use_state, List.get?_concat_length]

/-- Replay step: a request strictly below the current length returns the
stored value unchanged when the types agree. -/
theorem use_state_replay_eq (pre post : List DynValue) (w v : DynValue)
    (hty : w.ty = v.ty) :
    State.use_state (pre ++ w :: post) v pre.length =
      (.ok w, pre ++ w :: post) := by
  have hlen : (pre ++ w :: post).length = pre.length + (post.length + 1) := by
    simp
  have hlt : pre.length < (pre ++ w :: post).length := by omega
  simp only [State.use_state]
  rw [if_pos (Nat.le_of_lt hlt), if_neg (by omega)]
  rw [get?_append_cons]
  simp [hty]

/-- Case analysis of `State::use_state` under the assert's precondition. -/
theorem use_state_le_cases (regs : List DynValue) (v : DynValue) (i : Nat)
    (h : i ≤ regs.length) :
    (i = regs.length ∧ State.use_state regs v i = (.ok v, regs ++ [v])) ∨
    (i < regs.length ∧ ∃ w, regs.get? i = some w ∧
      ((w.ty = v.ty ∧ State.use_state regs v i = (.ok w, regs)) ∨
       (w.ty ≠ v.ty ∧ State.use_state regs v i = (.error .TypeMismatch, regs)))) := by
  rcases Nat.lt_or_ge i regs.length with hlt | hge
  · right
    refine ⟨hlt, ?_⟩
    cases hw : regs.get? i with
    | none => exact absurd (List.get?_eq_none.mp hw) (by omega)
    | some w =>
      refine ⟨w, rfl, ?_⟩
      by_cases hty : w.ty = v.ty
      · left
        refine ⟨hty, ?_⟩
        simp only [State.use_state]
        rw [if_pos h, if_neg (by omega), hw]
        simp [hty]
      · right
        refine ⟨hty, ?_⟩
        simp only [State.use_state]
        rw [if_pos h, if_neg (by omega), hw]
        simp [hty]
  · left
    have : i = regs.length := by omega
    exact ⟨this, this ▸ use_state_append_eq regs v⟩

/-! ### Step lemmas for the binding -/

/-- Appending step through the binding: with the counter at the store's
current length, `use_state` appends and returns the initial value, yields the
setter `(cursor, counter)`, and bumps the counter. -/
theorem hook_use_state_append (t : StateTree) (p : List Nat)
    (rs : List DynValue) (v : DynValue)
    (h : t.get_state p = some ⟨rs⟩) :
    Hook.use_state ⟨p, rs.length⟩ t v =
      (.ok (v, ⟨p, rs.length⟩), ⟨p, rs.length + 1⟩,
       t.setStateAt p (rs ++ [v])) := by
  simp only [Hook.use_state, h, use_state_append_eq]

/-- Replay step through the binding: with the counter strictly below the
store's length and matching types, `use_state` returns the stored value and
writes the unchanged registers back. -/
theorem hook_use_state_replay (t : StateTree) (p : List Nat)
    (pre post : List DynValue) (w v : DynValue)
    (h : t.get_state p = some ⟨pre ++ w :: post⟩) (hty : w.ty = v.ty) :
    Hook.use_state ⟨p, pre.length⟩ t v =
      (.ok (w, ⟨p, pre.length⟩), ⟨p, pre.length + 1⟩,
       t.setStateAt p (pre ++ w :: post)) := by
  simp only [Hook.use_state, h, use_state_replay_eq pre post w v hty]

/-! ### Sequence lemmas -/

/-- A run against a store whose length equals the starting counter appends all
the initial values in order, returns them paired with setters
`(p, c), (p, c+1), ...`, and leaves the store holding the old registers
followed by the new values. -/
theorem runSeq_fresh (vs : List DynValue) :
    ∀ (t : StateTree) (p : List Nat) (rs : List DynValue),
    t.get_state p = some ⟨rs⟩ →
    (runSeq ⟨p, rs.length⟩ t vs).1 = .ok (outsFrom p rs.length vs) ∧
    (runSeq ⟨p, rs.length⟩ t vs).2.1 = ⟨p, rs.length + vs.length⟩ ∧
    (runSeq ⟨p, rs.length⟩ t vs).2.2.get_state p = some ⟨rs ++ vs⟩ := by
  induction vs with
  | nil =>
    intro t p rs h
    simp [runSeq, outsFrom, h]
  | cons v vs ih =>
    intro t p rs h
    have hstep := hook_use_state_append t p rs v h
    have h1 : (t.setStateAt p (rs ++ [v])).get_state p = some ⟨rs ++ [v]⟩ :=
      get_state_setStateAt p t ⟨rs⟩ (rs ++ [v]) h
    have hlen : (rs ++ [v]).length = rs.length + 1 := by simp
    obtain ⟨ih1, ih2, ih3⟩ := ih (t.setStateAt p (rs ++ [v])) p (rs ++ [v]) h1
    rw [hlen] at ih1 ih2 ih3
    simp only [runSeq, hstep]
    rcases hr : runSeq ⟨p, rs.length + 1⟩ (t.setStateAt p (rs ++ [v])) vs
      with ⟨r, h2, t2⟩
    rw [hr] at ih1 ih2 ih3
    simp only at ih1 ih2 ih3
    subst ih1 ih2
    refine ⟨by simp [outsFrom], by simp; omega, ?_⟩
    simpa [List.append_assoc] using ih3

/-- A replay run: starting at counter `pre.length` against a store holding
`pre ++ mid ++ post`, a request sequence whose types match `mid` reads back
exactly `mid` (ignoring the new initial values), bumps the counter by its
length, and leaves the store untouched. -/
theorem runSeq_replay (ws : List DynValue) :
    ∀ (mid pre post : List DynValue) (t : StateTree) (p : List Nat),
    ws.map DynValue.ty = mid.map DynValue.ty →
    t.get_state p = some ⟨pre ++ mid ++ post⟩ →
    (runSeq ⟨p, pre.length⟩ t ws).1 = .ok (outsFrom p pre.length mid) ∧
    (runSeq ⟨p, pre.length⟩ t ws).2.1 = ⟨p, pre.length + ws.length⟩ ∧
    (runSeq ⟨p, pre.length⟩ t ws).2.2.get_state p
      = some ⟨pre ++ mid ++ post⟩ := by
  induction ws with
  | nil =>
    intro mid pre post t p hty h
    have : mid = [] := by
      cases mid with
      | nil => rfl
      | cons m mid => simp at hty
    subst this
    simp [runSeq, outsFrom, h]
  | cons w ws ih =>
    intro mid pre post t p hty h
    cases mid with
    | nil => simp at hty
    | cons m mid' =>
      simp only [List.map] at hty
      have hwm : w.ty = m.ty := (List.cons.injEq _ _ _ _ ▸ hty).1
      have hty' : ws.map DynValue.ty = mid'.map DynValue.ty :=
        (List.cons.injEq _ _ _ _ ▸ hty).2
      have hre : pre ++ (m :: mid') ++ post = pre ++ m :: (mid' ++ post) := by
        simp
      rw [hre] at h
      have hstep := hook_use_state_replay t p pre (mid' ++ post) m w h
        (hwm.symm)
      have h1 : (t.setStateAt p (pre ++ m :: (mid' ++ post))).get_state p
          = some ⟨(pre ++ [m]) ++ mid' ++ post⟩ := by
        simpa using get_state_setStateAt p t _ _ h
      have hlen : (pre ++ [m]).length = pre.length + 1 := by simp
      obtain ⟨ih1, ih2, ih3⟩ := ih mid' (pre ++ [m]) post
        (t.setStateAt p (pre ++ m :: (mid' ++ post))) p hty' h1
      rw [hlen] at ih1 ih2 ih3
      simp only [runSeq, hstep]
      rcases hr : runSeq ⟨p, pre.length + 1⟩
          (t.setStateAt p (pre ++ m :: (mid' ++ post))) ws with ⟨r, h2, t2⟩
      rw [hr] at ih1 ih2 ih3
      simp only at ih1 ih2 ih3
      subst ih1 ih2
      refine ⟨by simp [outsFrom], by simp; omega, ?_⟩
      simpa using ih3

/-! ### Setter sequences -/

/-- `setAll` leaves the length unchanged. -/
theorem setAll_length (us : List (Nat × DynValue)) :
    ∀ (vs : List DynValue), (setAll vs us).length = vs.length := by
  induction us with
  | nil => intro vs; rfl
  | cons kw us ih =>
    intro vs
    simp only [setAll, List.foldl] at *
    rw [ih (vs.set kw.1 kw.2), List.length_set]

/-- A sequence of overwrites whose value types match the stored types leaves
the type map of the register list unchanged. -/
theorem setAll_map_ty (us : List (Nat × DynValue)) :
    ∀ (vs : List DynValue),
    (∀ kw ∈ us, ∃ u, vs.get? kw.1 = some u ∧ kw.2.ty = u.ty) →
    (setAll vs us).map DynValue.ty = vs.map DynValue.ty := by
  induction us with
  | nil => intro vs _; rfl
  | cons kw us ih =>
    intro vs hus
    obtain ⟨u, hu, htyu⟩ := hus kw (by simp)
    have hstep : (vs.set kw.1 kw.2).map DynValue.ty = vs.map DynValue.ty :=
      map_set_eq_of_eq DynValue.ty vs kw.1 u kw.2 hu htyu
    have hus' : ∀ kw' ∈ us, ∃ u', (vs.set kw.1 kw.2).get? kw'.1 = some u' ∧
        kw'.2.ty = u'.ty := by
      intro kw' hkw'
      obtain ⟨u', hu', htyu'⟩ := hus kw' (by simp [hkw'])
      by_cases hk : kw'.1 = kw.1
      · refine ⟨kw.2, ?_, ?_⟩
        · rw [hk]
          exact List.get?_set_eq_of_lt _ (List.get?_eq_some.mp hu).1
        · rw [hk] at hu'
          rw [hu] at hu'
          cases hu'
          rw [htyu', ← htyu]
      · exact ⟨u', by rw [List.get?_set_ne _ _ (fun hh => hk hh.symm)]; exact hu',
          htyu'⟩
    simp only [setAll, List.foldl] at *
    rw [ih (vs.set kw.1 kw.2) hus', hstep]

/-- A sequence of in-bounds setter invocations at a resolvable path all
succeed and leave the path holding the correspondingly overwritten
registers. -/
theorem applySetters_ok (us : List (Nat × DynValue)) :
    ∀ (t : StateTree) (p : List Nat) (cur : List DynValue),
    t.get_state p = some ⟨cur⟩ →
    (∀ kw ∈ us, kw.1 < cur.length) →
    (applySetters p t us).1 = us.map (fun _ => .ok ()) ∧
    (applySetters p t us).2.get_state p = some ⟨setAll cur us⟩ := by
  induction us with
  | nil => intro t p cur h _; exact ⟨rfl, by simpa [applySetters, setAll] using h⟩
  | cons kw us ih =>
    intro t p cur h hus
    have hk : kw.1 < cur.length := hus kw (by simp)
    have hcall : Setter.call ⟨p, kw.1⟩ t kw.2 =
        (.ok (), t.setStateAt p (cur.set kw.1 kw.2)) := by
      simp only [Setter.call, h, set_value]
      rw [if_pos hk]
    have h1 : (t.setStateAt p (cur.set kw.1 kw.2)).get_state p
        = some ⟨cur.set kw.1 kw.2⟩ :=
      get_state_setStateAt p t _ _ h
    have hus' : ∀ kw' ∈ us, kw'.1 < (cur.set kw.1 kw.2).length := by
      intro kw' hkw'
      rw [List.length_set]
      exact hus kw' (by simp [hkw'])
    obtain ⟨ih1, ih2⟩ := ih (t.setStateAt p (cur.set kw.1 kw.2)) p
      (cur.set kw.1 kw.2) h1 hus'
    cases hkw : kw with
    | mk k w =>
      subst hkw
      simp only [applySetters, hcall, List.map]
      rcases hr : applySetters p (t.setStateAt p (cur.set k w)) us
        with ⟨rs, t2⟩
      rw [hr] at ih1 ih2
      simp only at ih1 ih2
      subst ih1
      exact ⟨rfl, by simpa [setAll, List.foldl] using ih2⟩

/-! ### Resolvability preservation -/

/-- Register write-backs never change which paths resolve: the tree's shape
(its `children` lists) is untouched by every store operation, so a path that
does not resolve can never start resolving. -/
theorem get_state_isSome_setStateAt (p : List Nat) :
    ∀ (t : StateTree) (regs : List DynValue) (q : List Nat),
    ((t.setStateAt p regs).get_state q).isSome = (t.get_state q).isSome := by
  induction p with
  | nil =>
    intro t regs q
    cases t with
    | mk s ch k =>
      cases q with
      | nil => rfl
      | cons j qrest => rfl
  | cons i rest ih =>
    intro t regs q
    cases t with
    | mk s ch k =>
      simp only [StateTree.setStateAt]
      cases hch : ch.get? i with
      | none => rfl
      | some c =>
        cases q with
        | nil => rfl
        | cons j qrest =>
          simp only [StateTree.get_state, StateTree.children]
          by_cases hj : j = i
          · subst hj
            rw [List.get?_set_eq_of_lt _ (List.get?_eq_some.mp hch).1, hch]
            exact ih c regs qrest
          · rw [List.get?_set_ne _ _ (fun hh => hj hh.symm)]

/-! ### Claim theorems -/

/-- Claim C3: getOrInit semantics. For every slot store and every index with
`index <= currentLength`: at `index == currentLength` the call appends the
initial value as a new slot and returns it; at `index < currentLength` it
ignores the initial value and returns a copy of the stored value, leaving the
store unchanged, when the stored type matches the requested type. -/
theorem claim3_getOrInit_semantics (regs : List DynValue) (v : DynValue)
    (i : Nat) :
    (i = regs.length → State.use_state regs v i = (.ok v, regs ++ [v])) ∧
    (∀ w, regs.get? i = some w → w.ty = v.ty →
      State.use_state regs v i = (.ok w, regs)) := by
  constructor
  · intro hi
    subst hi
    exact use_state_append_eq regs v
  · intro w hw hty
    have hi : i < regs.length := (List.get?_eq_some.mp hw).1
    rcases use_state_le_cases regs v i (Nat.le_of_lt hi) with
      ⟨he, _⟩ | ⟨_, w', hw', hcase⟩
    · omega
    · rw [hw] at hw'
      cases hw'
      rcases hcase with ⟨_, heq⟩ | ⟨hne, _⟩
      · exact heq
      · exact absurd hty hne

/-- Witness for C3 at a concrete input: appending at the tail and re-reading
an existing slot of the same type. -/
theorem claim3_getOrInit_semantics_witness :
    State.use_state [DynValue.str "what"] (DynValue.int 123) 1 =
      (.ok (DynValue.int 123), [DynValue.str "what", DynValue.int 123]) ∧
    State.use_state [DynValue.str "what"] (DynValue.str "no") 0 =
      (.ok (DynValue.str "what"), [DynValue.str "what"]) := by
  constructor
  · exact (claim3_getOrInit_semantics [DynValue.str "what"]
      (DynValue.int 123) 1).1 rfl
  · exact (claim3_getOrInit_semantics [DynValue.str "what"]
      (DynValue.str "no") 0).2 (DynValue.str "what") rfl rfl

/-- Claim C5: OrderViolation condition. `getOrInit` fails with
`OrderViolation` exactly when `index > currentLength`, and then mutates
nothing; in particular, a replay that requests fewer slots (a type-matching
prefix `ws` of the established `rs`) leaves the store at its established
length, and a follow-up request at an index exceeding that length fails with
`OrderViolation` rather than silently allocating or reading out of bounds. -/
theorem claim5_order_violation_condition (regs : List DynValue)
    (v : DynValue) (i : Nat) :
    ((State.use_state regs v i).1 = .error .OrderViolation ↔
      regs.length < i) ∧
    (regs.length < i →
      State.use_state regs v i = (.error .OrderViolation, regs)) ∧
    (∀ (t : StateTree) (p : List Nat) (rs ws mid post : List DynValue),
      rs = mid ++ post →
      ws.map DynValue.ty = mid.map DynValue.ty →
      t.get_state p = some ⟨rs⟩ →
      (runSeq ⟨p, 0⟩ t ws).2.2.get_state p = some ⟨rs⟩ ∧
      (State.use_state rs v (rs.length + 1)).1 = .error .OrderViolation) := by
  have hgt : ∀ (rs : List DynValue) (j : Nat), rs.length < j →
      State.use_state rs v j = (.error .OrderViolation, rs) := by
    intro rs j hj
    simp only [State.use_state]
    rw [if_neg (by omega)]
  refine ⟨⟨?_, ?_⟩, hgt regs i, ?_⟩
  · intro herr
    by_contra hle
    rcases use_state_le_cases regs v i (by omega) with
      ⟨_, heq⟩ | ⟨_, w, _, hcase⟩
    · rw [heq] at herr; exact absurd herr (by simp)
    · rcases hcase with ⟨_, heq⟩ | ⟨_, heq⟩ <;> rw [heq] at herr <;>
        exact absurd herr (by simp)
  · intro hi
    rw [hgt regs i hi]
  · intro t p rs ws mid post hsplit hty h
    subst hsplit
    have h' : t.get_state p = some ⟨[] ++ mid ++ post⟩ := by simpa using h
    obtain ⟨_, _, h3⟩ := runSeq_replay ws mid [] post t p hty h'
    refine ⟨by simpa using h3, ?_⟩
    rw [hgt (mid ++ post) ((mid ++ post).length + 1) (by omega)]

/-- Witness for C5 at a concrete input: with one established slot, index 2
fails with `OrderViolation` and leaves the store unchanged; a one-request
replay against a two-slot store leaves both slots, and index 3 then fails. -/
theorem claim5_order_violation_condition_witness :
    (State.use_state [DynValue.int 7] (DynValue.int 9) 2).1 =
      .error .OrderViolation ∧
    State.use_state [DynValue.int 7] (DynValue.int 9) 2 =
      (.error .OrderViolation, [DynValue.int 7]) ∧
    (runSeq ⟨[], 0⟩ (StateTree.mk ⟨[DynValue.int 7, DynValue.int 8]⟩ [] 0)
        [DynValue.int 1]).2.2.get_state [] =
      some ⟨[DynValue.int 7, DynValue.int 8]⟩ ∧
    (State.use_state [DynValue.int 7, DynValue.int 8] (DynValue.int 9)
      ([DynValue.int 7, DynValue.int 8].length + 1)).1 =
      .error .OrderViolation := by
  refine ⟨?_, ?_, ?_, ?_⟩
  · exact (claim5_order_violation_condition [DynValue.int 7] (DynValue.int 9)
      2).1.mpr (by decide)
  · exact (claim5_order_violation_condition [DynValue.int 7] (DynValue.int 9)
      2).2.1 (by decide)
  · exact ((claim5_order_violation_condition [] (DynValue.int 9) 0).2.2
      (StateTree.mk ⟨[DynValue.int 7, DynValue.int 8]⟩ [] 0) []
      [DynValue.int 7, DynValue.int 8] [DynValue.int 1] [DynValue.int 7]
      [DynValue.int 8] rfl rfl rfl).1
  · exact ((claim5_order_violation_condition [] (DynValue.int 9) 0).2.2
      (StateTree.mk ⟨[DynValue.int 7, DynValue.int 8]⟩ [] 0) []
      [DynValue.int 7, DynValue.int 8] [DynValue.int 1] [DynValue.int 7]
      [DynValue.int 8] rfl rfl rfl).2

/-- Claim C7: set semantics. The store-level `set` requires
`index < currentLength` and fails with `UnknownSlot` (mutating nothing)
otherwise; when the index exists and the new value's type matches the slot's
type, it overwrites that slot in place, leaving the length and every other
slot unchanged. -/
theorem claim7_set_semantics (regs : List DynValue) (i : Nat)
    (v : DynValue) :
    (regs.length ≤ i → set_value regs i v = (.error .UnknownSlot, regs)) ∧
    (∀ w, regs.get? i = some w → w.ty = v.ty →
      set_value regs i v = (.ok (), regs.set i v) ∧
      (regs.set i v).length = regs.length ∧
      (regs.set i v).get? i = some v ∧
      ∀ j, j ≠ i → (regs.set i v).get? j = regs.get? j) := by
  constructor
  · intro hi
    simp only [set_value]
    rw [if_neg (by omega)]
  · intro w hw _
    have hi : i < regs.length := (List.get?_eq_some.mp hw).1
    refine ⟨?_, List.length_set regs i v, List.get?_set_eq_of_lt v hi, ?_⟩
    · simp only [set_value]
      rw [if_pos hi]
    · intro j hj
      exact List.get?_set_ne v regs (fun hh => hj hh.symm)

/-- Witness for C7 at a concrete input: an out-of-bounds set fails with
`UnknownSlot`; an in-bounds, type-matching set overwrites only its slot. -/
theorem claim7_set_semantics_witness :
    (set_value [DynValue.bool true, DynValue.int 5] 2 (DynValue.int 9) =
      (.error .UnknownSlot, [DynValue.bool true, DynValue.int 5])) ∧
    set_value [DynValue.bool true, DynValue.int 5] 1 (DynValue.int 9) =
      (.ok (), [DynValue.bool true, DynValue.int 9]) ∧
    ([DynValue.bool true, DynValue.int 5].set 1 (DynValue.int 9)).length = 2 ∧
    ([DynValue.bool true, DynValue.int 5].set 1 (DynValue.int 9)).get? 1 =
      some (DynValue.int 9) ∧
    ([DynValue.bool true, DynValue.int 5].set 1 (DynValue.int 9)).get? 0 =
      [DynValue.bool true, DynValue.int 5].get? 0 := by
  refine ⟨?_, ?_, ?_, ?_, ?_⟩
  · exact (claim7_set_semantics [DynValue.bool true, DynValue.int 5] 2
      (DynValue.int 9)).1 (by decide)
  · exact ((claim7_set_semantics [DynValue.bool true, DynValue.int 5] 1
      (DynValue.int 9)).2 (DynValue.int 5) rfl rfl).1
  · exact ((claim7_set_semantics [DynValue.bool true, DynValue.int 5] 1
      (DynValue.int 9)).2 (DynValue.int 5) rfl rfl).2.1
  · exact ((claim7_set_semantics [DynValue.bool true, DynValue.int 5] 1
      (DynValue.int 9)).2 (DynValue.int 5) rfl rfl).2.2.1
  · exact ((claim7_set_semantics [DynValue.bool true, DynValue.int 5] 1
      (DynValue.int 9)).2 (DynValue.int 5) rfl rfl).2.2.2 0 (by decide)

/-- Claim C8: failure atomicity. Whenever `getOrInit` or `set` fails (with
any of the typed panic conditions), the slot store is left exactly as it was:
no slot is appended, overwritten or removed by the failing call. -/
theorem claim8_failure_atomicity (regs : List DynValue) (v : DynValue)
    (i : Nat) :
    (∀ e, (State.use_state regs v i).1 = .error e →
      (State.use_state regs v i).2 = regs) ∧
    (∀ e, (set_value regs i v).1 = .error e →
      (set_value regs i v).2 = regs) := by
  constructor
  · intro e herr
    rcases Nat.lt_or_ge regs.length i with hgt | hle
    · simp only [State.use_state]
      rw [if_neg (by omega)]
    · rcases use_state_le_cases regs v i hle with
        ⟨_, heq⟩ | ⟨_, w, _, hcase⟩
      · rw [heq] at herr; exact absurd herr (by simp)
      · rcases hcase with ⟨_, heq⟩ | ⟨_, heq⟩ <;> rw [heq]
  · intro e herr
    rcases Nat.lt_or_ge i regs.length with hlt | hge
    · simp only [set_value] at herr ⊢
      rw [if_pos hlt] at herr
      exact absurd herr (by simp)
    · simp only [set_value]
      rw [if_neg (by omega)]

/-- Witness for C8 at concrete inputs: a failing `getOrInit` (order
violation), a failing `getOrInit` (type mismatch) and a failing `set` all
leave the store unchanged. -/
theorem claim8_failure_atomicity_witness :
    (State.use_state [DynValue.str "a"] (DynValue.int 5) 3).2 =
      [DynValue.str "a"] ∧
    (State.use_state [DynValue.str "a"] (DynValue.int 5) 0).2 =
      [DynValue.str "a"] ∧
    (set_value [DynValue.str "a"] 3 (DynValue.int 5)).2 =
      [DynValue.str "a"] := by
  refine ⟨?_, ?_, ?_⟩
  · exact (claim8_failure_atomicity [DynValue.str "a"] (DynValue.int 5) 3).1
      .OrderViolation rfl
  · exact (claim8_failure_atomicity [DynValue.str "a"] (DynValue.int 5) 0).1
      .TypeMismatch rfl
  · exact (claim8_failure_atomicity [DynValue.str "a"] (DynValue.int 5) 3).2
      .UnknownSlot rfl

/-- Counterexample to claim C6 as stated: slot 0 holds a string, yet the
store-level `set` with an integer does not fail with `TypeMismatch` — it
succeeds and silently overwrites the slot, changing its type. -/
theorem claim6_counterexample :
    (set_value [DynValue.str "a"] 0 (DynValue.int 5)).1 ≠
      .error .TypeMismatch ∧
    set_value [DynValue.str "a"] 0 (DynValue.int 5) =
      (.ok (), [DynValue.int 5]) := by
  constructor
  · intro h
    simp [set_value] at h
  · rfl

/-- Claim C6 (amended): a slot's fixed type is enforced by `getOrInit`: a
later `getOrInit` at that index with a different type fails with
`TypeMismatch` and mutates nothing, and a successful `getOrInit` never
returns a value of a type other than the requested one. The store-level
`set`, by contrast, performs no dynamic type check: on an existing index it
overwrites the slot regardless of the new value's type (through the Binding
interface a setter can only be invoked with the static type used by the
request that produced it, so a differently-typed `set` cannot be issued). -/
theorem claim6_type_mismatch_amended (regs : List DynValue) (v : DynValue)
    (i : Nat) :
    (∀ w, regs.get? i = some w → w.ty ≠ v.ty →
      State.use_state regs v i = (.error .TypeMismatch, regs)) ∧
    (∀ v' regs', State.use_state regs v i = (.ok v', regs') →
      v'.ty = v.ty) ∧
    (i < regs.length → set_value regs i v = (.ok (), regs.set i v)) := by
  refine ⟨?_, ?_, ?_⟩
  · intro w hw hne
    have hi : i < regs.length := (List.get?_eq_some.mp hw).1
    rcases use_state_le_cases regs v i (Nat.le_of_lt hi) with
      ⟨he, _⟩ | ⟨_, w', hw', hcase⟩
    · omega
    · rw [hw] at hw'
      cases hw'
      rcases hcase with ⟨hty, _⟩ | ⟨_, heq⟩
      · exact absurd hty hne
      · exact heq
  · intro v' regs' hok
    rcases Nat.lt_or_ge regs.length i with hgt | hle
    · have : State.use_state regs v i = (.error .OrderViolation, regs) := by
        simp only [State.use_state]
        rw [if_neg (by omega)]
      rw [this] at hok
      exact absurd hok (by simp)
    · rcases use_state_le_cases regs v i hle with
        ⟨_, heq⟩ | ⟨_, w, _, hcase⟩
      · rw [heq] at hok
        cases hok
        rfl
      · rcases hcase with ⟨hty, heq⟩ | ⟨_, heq⟩ <;> rw [heq] at hok
        · cases hok
          exact hty
        · exact absurd hok (by simp)
  · intro hi
    simp only [set_value]
    rw [if_pos hi]

/-- Witness for the amended C6 at concrete inputs: a numeric request over a
string slot fails with `TypeMismatch` leaving the store unchanged; a
successful request returns a value of the requested type; a type-changing
store-level `set` succeeds. -/
theorem claim6_type_mismatch_amended_witness :
    State.use_state [DynValue.str "a"] (DynValue.int 5) 0 =
      (.error .TypeMismatch, [DynValue.str "a"]) ∧
    (DynValue.str "a").ty = (DynValue.str "no").ty ∧
    set_value [DynValue.str "a"] 0 (DynValue.int 5) =
      (.ok (), [DynValue.int 5]) := by
  refine ⟨?_, ?_, ?_⟩
  · exact (claim6_type_mismatch_amended [DynValue.str "a"] (DynValue.int 5)
      0).1 (DynValue.str "a") rfl (by decide)
  · exact (claim6_type_mismatch_amended [DynValue.str "a"]
      (DynValue.str "no") 0).2.1 (DynValue.str "a") [DynValue.str "a"] rfl
  · exact (claim6_type_mismatch_amended [DynValue.str "a"] (DynValue.int 5)
      0).2.2 (by decide)

/-- Claim C1: recovery idempotence. Issuing a request sequence with initial
values `vs` through a fresh binding (counter 0) against a path whose store is
fresh (empty) returns exactly `vs`; issuing the identical sequence again
through a new fresh binding at the same path, with arbitrary new initial
values `ws` of the same types, again returns exactly `vs` — the new initial
values are ignored. -/
theorem claim1_recovery_idempotence (t : StateTree) (p : List Nat)
    (vs ws : List DynValue)
    (hfresh : t.get_state p = some ⟨[]⟩)
    (hty : ws.map DynValue.ty = vs.map DynValue.ty) :
    (runSeq ⟨p, 0⟩ t vs).1 = .ok (outsFrom p 0 vs) ∧
    (outsFrom p 0 vs).map Prod.fst = vs ∧
    (runSeq ⟨p, 0⟩ (runSeq ⟨p, 0⟩ t vs).2.2 ws).1 =
      .ok (outsFrom p 0 vs) := by
  obtain ⟨h1, _, h3⟩ := runSeq_fresh vs t p [] hfresh
  refine ⟨h1, outsFrom_map_fst p 0 vs, ?_⟩
  have h3' : (runSeq ⟨p, 0⟩ t vs).2.2.get_state p
      = some ⟨([] : List DynValue) ++ vs ++ []⟩ := by simpa using h3
  obtain ⟨h4, _, _⟩ := runSeq_replay ws vs [] [] ((runSeq ⟨p, 0⟩ t vs).2.2)
    p hty h3'
  exact h4

/-- Witness for C1 at the spec's concrete example: values
`("what", 123, 3.145, true)` recovered despite replay initial values
`("no", 1231, 3.14325, false)` (floats stand for their 64-bit patterns). -/
theorem claim1_recovery_idempotence_witness :
    (runSeq ⟨[], 0⟩ StateTree.default
        [DynValue.str "what", DynValue.int 123, DynValue.float 3145,
         DynValue.bool true]).1 =
      .ok (outsFrom [] 0
        [DynValue.str "what", DynValue.int 123, DynValue.float 3145,
         DynValue.bool true]) ∧
    (outsFrom [] 0
        [DynValue.str "what", DynValue.int 123, DynValue.float 3145,
         DynValue.bool true]).map Prod.fst =
      [DynValue.str "what", DynValue.int 123, DynValue.float 3145,
       DynValue.bool true] ∧
    (runSeq ⟨[], 0⟩
        (runSeq ⟨[], 0⟩ StateTree.default
          [DynValue.str "what", DynValue.int 123, DynValue.float 3145,
           DynValue.bool true]).2.2
        [DynValue.str "no", DynValue.int 1231, DynValue.float 314325,
         DynValue.bool false]).1 =
      .ok (outsFrom [] 0
        [DynValue.str "what", DynValue.int 123, DynValue.float 3145,
         DynValue.bool true]) :=
  claim1_recovery_idempotence StateTree.default []
    [DynValue.str "what", DynValue.int 123, DynValue.float 3145,
     DynValue.bool true]
    [DynValue.str "no", DynValue.int 1231, DynValue.float 314325,
     DynValue.bool false] rfl rfl

/-- Claim C2: set-then-recover. After a fresh run with values `vs` at path
`p`, the i-th request's setter is the capability `(p, i)`; invoking any
sequence of such setters with type-matching new values succeeds call by call,
and a subsequent replay of the same request sequence through a fresh binding
at `p` returns the overwritten values — each set value appears at its
position. -/
theorem claim2_set_then_recover (t : StateTree) (p : List Nat)
    (vs : List DynValue) (us : List (Nat × DynValue)) (ws : List DynValue)
    (hfresh : t.get_state p = some ⟨[]⟩)
    (hus : ∀ kw ∈ us, ∃ u, vs.get? kw.1 = some u ∧ kw.2.ty = u.ty)
    (hty : ws.map DynValue.ty = vs.map DynValue.ty) :
    (runSeq ⟨p, 0⟩ t vs).1 = .ok (outsFrom p 0 vs) ∧
    (∀ i, (outsFrom p 0 vs).get? i =
      (vs.get? i).map (fun v => (v, ⟨p, i⟩))) ∧
    (applySetters p (runSeq ⟨p, 0⟩ t vs).2.2 us).1 =
      us.map (fun _ => .ok ()) ∧
    (runSeq ⟨p, 0⟩ (applySetters p (runSeq ⟨p, 0⟩ t vs).2.2 us).2 ws).1 =
      .ok (outsFrom p 0 (setAll vs us)) ∧
    (outsFrom p 0 (setAll vs us)).map Prod.fst = setAll vs us ∧
    (∀ k w u, us = [(k, w)] → vs.get? k = some u →
      (setAll vs us).get? k = some w) := by
  obtain ⟨h1, _, h3⟩ := runSeq_fresh vs t p [] hfresh
  have h3' : (runSeq ⟨p, 0⟩ t vs).2.2.get_state p = some ⟨vs⟩ := by
    simpa using h3
  have hbound : ∀ kw ∈ us, kw.1 < vs.length := by
    intro kw hkw
    obtain ⟨u, hu, _⟩ := hus kw hkw
    exact (List.get?_eq_some.mp hu).1
  obtain ⟨hset1, hset2⟩ :=
    applySetters_ok us ((runSeq ⟨p, 0⟩ t vs).2.2) p vs h3' hbound
  have htyAll : ws.map DynValue.ty = (setAll vs us).map DynValue.ty := by
    rw [setAll_map_ty us vs hus]
    exact hty
  have hset2' : (applySetters p (runSeq ⟨p, 0⟩ t vs).2.2 us).2.get_state p
      = some ⟨([] : List DynValue) ++ setAll vs us ++ []⟩ := by
    simpa using hset2
  obtain ⟨h4, _, _⟩ := runSeq_replay ws (setAll vs us) [] []
    ((applySetters p (runSeq ⟨p, 0⟩ t vs).2.2 us).2) p htyAll hset2'
  refine ⟨h1, ?_, hset1, h4, outsFrom_map_fst p 0 (setAll vs us), ?_⟩
  · intro i
    simpa using outsFrom_get? p 0 vs i
  · intro k w u hsingle hu
    subst hsingle
    simp only [setAll, List.foldl]
    exact List.get?_set_eq_of_lt w (List.get?_eq_some.mp hu).1

/-- Witness for C2 at the spec's example: after setters overwrite the four
slots with `("möp", 314, 0.0, false)`, the replay returns exactly those
values (floats stand for their 64-bit patterns; `0.0` has pattern 0). -/
theorem claim2_set_then_recover_witness :
    (runSeq ⟨[], 0⟩ StateTree.default
        [DynValue.str "what", DynValue.int 123, DynValue.float 3145,
         DynValue.bool true]).1 =
      .ok (outsFrom [] 0
        [DynValue.str "what", DynValue.int 123, DynValue.float 3145,
         DynValue.bool true]) ∧
    (outsFrom [] 0
        [DynValue.str "what", DynValue.int 123, DynValue.float 3145,
         DynValue.bool true]).get? 2 =
      ([DynValue.str "what", DynValue.int 123, DynValue.float 3145,
        DynValue.bool true].get? 2).map (fun v => (v, ⟨[], 2⟩)) ∧
    (applySetters []
        (runSeq ⟨[], 0⟩ StateTree.default
          [DynValue.str "what", DynValue.int 123, DynValue.float 3145,
           DynValue.bool true]).2.2
        [(0, DynValue.str "möp"), (1, DynValue.int 314),
         (2, DynValue.float 0), (3, DynValue.bool false)]).1 =
      [(0, DynValue.str "möp"), (1, DynValue.int 314),
       (2, DynValue.float 0), (3, DynValue.bool false)].map
        (fun _ => .ok ()) ∧
    (runSeq ⟨[], 0⟩
        (applySetters []
          (runSeq ⟨[], 0⟩ StateTree.default
            [DynValue.str "what", DynValue.int 123, DynValue.float 3145,
             DynValue.bool true]).2.2
          [(0, DynValue.str "möp"), (1, DynValue.int 314),
           (2, DynValue.float 0), (3, DynValue.bool false)]).2
        [DynValue.str "what", DynValue.int 123, DynValue.float 3145,
         DynValue.bool true]).1 =
      .ok (outsFrom [] 0
        (setAll
          [DynValue.str "what", DynValue.int 123, DynValue.float 3145,
           DynValue.bool true]
          [(0, DynValue.str "möp"), (1, DynValue.int 314),
           (2, DynValue.float 0), (3, DynValue.bool false)])) ∧
    (outsFrom [] 0
        (setAll
          [DynValue.str "what", DynValue.int 123, DynValue.float 3145,
           DynValue.bool true]
          [(0, DynValue.str "möp"), (1, DynValue.int 314),
           (2, DynValue.float 0), (3, DynValue.bool false)])).map Prod.fst =
      setAll
        [DynValue.str "what", DynValue.int 123, DynValue.float 3145,
         DynValue.bool true]
        [(0, DynValue.str "möp"), (1, DynValue.int 314),
         (2, DynValue.float 0), (3, DynValue.bool false)] := by
  have happ := claim2_set_then_recover StateTree.default []
    [DynValue.str "what", DynValue.int 123, DynValue.float 3145,
     DynValue.bool true]
    [(0, DynValue.str "möp"), (1, DynValue.int 314),
     (2, DynValue.float 0), (3, DynValue.bool false)]
    [DynValue.str "what", DynValue.int 123, DynValue.float 3145,
     DynValue.bool true]
    rfl
    (by
      intro kw hkw
      fin_cases hkw
      · exact ⟨DynValue.str "what", rfl, rfl⟩
      · exact ⟨DynValue.int 123, rfl, rfl⟩
      · exact ⟨DynValue.float 3145, rfl, rfl⟩
      · exact ⟨DynValue.bool true, rfl, rfl⟩)
    rfl
  exact ⟨happ.1, happ.2.1 2, happ.2.2.1, happ.2.2.2.1, happ.2.2.2.2.1⟩

/-- Claim C10: the OrderViolation branch is unreachable through the binding
interface. For any hook whose counter does not exceed its path's current
store length — in particular a fresh hook with counter 0 — every sequence of
`use_state` calls keeps the counter at most the store length (each call uses
index `counter` and leaves length at least `counter + 1`), so the internal
assert's precondition `index <= currentLength` always holds and the run can
never end in `OrderViolation`. -/
theorem claim10_order_violation_unreachable (vs : List DynValue) :
    ∀ (t : StateTree) (p : List Nat) (rs : List DynValue) (c : Nat),
    t.get_state p = some ⟨rs⟩ → c ≤ rs.length →
    (runSeq ⟨p, c⟩ t vs).1 ≠ .error .OrderViolation := by
  induction vs with
  | nil =>
    intro t p rs c _ _
    simp [runSeq]
  | cons v vs ih =>
    intro t p rs c h hc
    rcases use_state_le_cases rs v c hc with
      ⟨hce, heq⟩ | ⟨hlt, w, _, hcase⟩
    · have hstep : Hook.use_state ⟨p, c⟩ t v =
          (.ok (v, ⟨p, c⟩), ⟨p, c + 1⟩, t.setStateAt p (rs ++ [v])) := by
        simp only [Hook.use_state, h, heq]
      have h1 : (t.setStateAt p (rs ++ [v])).get_state p
          = some ⟨rs ++ [v]⟩ := get_state_setStateAt p t ⟨rs⟩ (rs ++ [v]) h
      have hih := ih (t.setStateAt p (rs ++ [v])) p (rs ++ [v]) (c + 1) h1
        (by simp; omega)
      simp only [runSeq, hstep]
      rcases hr : runSeq ⟨p, c + 1⟩ (t.setStateAt p (rs ++ [v])) vs
        with ⟨r, h2, t2⟩
      rw [hr] at hih
      cases r with
      | ok outs => simp
      | error e => simpa using hih
    · rcases hcase with ⟨_, heq⟩ | ⟨_, heq⟩
      · have hstep : Hook.use_state ⟨p, c⟩ t v =
            (.ok (w, ⟨p, c⟩), ⟨p, c + 1⟩, t.setStateAt p rs) := by
          simp only [Hook.use_state, h, heq]
        have h1 : (t.setStateAt p rs).get_state p = some ⟨rs⟩ :=
          get_state_setStateAt p t ⟨rs⟩ rs h
        have hih := ih (t.setStateAt p rs) p rs (c + 1) h1 (by omega)
        simp only [runSeq, hstep]
        rcases hr : runSeq ⟨p, c + 1⟩ (t.setStateAt p rs) vs
          with ⟨r, h2, t2⟩
        rw [hr] at hih
        cases r with
        | ok outs => simp
        | error e => simpa using hih
      · have hstep : Hook.use_state ⟨p, c⟩ t v =
            (.error .TypeMismatch, ⟨p, c + 1⟩, t.setStateAt p rs) := by
          simp only [Hook.use_state, h, heq]
        simp [runSeq, hstep]
  
/-- Witness for C10 at a concrete input: a fresh hook replaying one request
of the wrong length context — a two-request run against a one-slot store —
does not end in `OrderViolation`. -/
theorem claim10_order_violation_unreachable_witness :
    (runSeq ⟨[], 0⟩ (StateTree.mk ⟨[DynValue.int 7]⟩ [] 0)
      [DynValue.int 1, DynValue.int 2]).1 ≠ .error .OrderViolation :=
  claim10_order_violation_unreachable [DynValue.int 1, DynValue.int 2]
    (StateTree.mk ⟨[DynValue.int 7]⟩ [] 0) [] [DynValue.int 7] 0 rfl
    (by decide)

/-- Claim C4, evaluated against the code. The true half: the empty path
resolves to the node's own slot store. The failing half: on a fresh tree the
path `[0]` does not resolve — `get_state` hits the out-of-bounds index
`children[0]` on the empty `children` vector (modelled as `none`), i.e. the
code faults with an out-of-bounds access instead of failing with a designed
`UnknownPath` error or growing the missing child. Moreover no store
operation changes which paths resolve (register write-backs preserve the
tree's shape), so the code has no path that ever populates `children`. -/
theorem claim4_path_resolution :
    (∀ t : StateTree, t.get_state [] = some t.state) ∧
    StateTree.default.get_state [0] = none ∧
    (∀ (t : StateTree) (p q : List Nat) (regs : List DynValue),
      ((t.setStateAt p regs).get_state q).isSome =
        (t.get_state q).isSome) := by
  refine ⟨fun t => rfl, rfl, fun t p q regs =>
    get_state_isSome_setStateAt p t regs q⟩
